import Mathlib

/-!
Verification of the network protocol layer (`Network/NetworkManager.js`):
packet registry, stream reassembly loop, connection manager and the
crypto-application policy, shallowly embedded in Lean.

Conventions of the embedding:
* Byte buffers are `List Nat`; `BinaryReader.readUShort` at offset `o`
  is `lePair buf o = buf[o] + 256 * buf[o+1]` (little endian).
* `Packets.list` (the registry array) is a function `Nat → Option Packets`.
* The parse constructor `new packet.struct(fp, offset)` is abstracted by
  the number of bytes it consumes from the cursor (`Struct.consume`) and
  by the dispatched value, which is determined by the packet id and the
  bytes between the cursor position and the frame end offset.
* The one-shot `read.callback` override is not armed in any scenario
  modelled here (it is `null` unless `read()` was explicitly called).
* JS falsiness of `packet.id` (`undefined` or `0`) is `jsFalsy`.
-/

/-- Little-endian 16-bit read at offset `o`: `buf[o] + 256 * buf[o+1]`,
out-of-range reads give 0 (the loop only reads in bounds). -/
def lePair (buf : List Nat) (o : Nat) : Nat :=
  buf.getD o 0 + 256 * buf.getD (o + 1) 0

/-- Bytes of `buf` from offset `a` (inclusive) to `b` (exclusive). -/
def byteSlice (buf : List Nat) (a b : Nat) : List Nat :=
  (buf.drop a).take (b - a)

/-- Packet structure callback passed to `registerPacket`: display name,
declared size (`size < 0` means variable / length-prefixed), the number of
bytes its constructor consumes from the reader, and the `id` property that
`registerPacket` assigns (`none` models the JS `undefined` before
registration). -/
structure Struct where
  sname : String
  size : Int
  consume : Nat
  id : Option Nat := none
deriving DecidableEq

/-- Entry of `Packets.list`: built by `registerPacket` as
`new Packets(struct.name, struct, struct.size)` with `callback` and
`guess` initialised to `null`; handlers are opaque tokens (`Nat`). -/
structure Packets where
  pname : String
  struct : Struct
  size : Int
  callback : Option Nat := none
  guess : Option Nat := none
deriving DecidableEq

/-- The registry `Packets.list`, indexed by packet id. -/
def Reg : Type := Nat → Option Packets

/-- JS falsiness of the `id` property: `undefined` (`none`) or `0`. -/
def jsFalsy (x : Option Nat) : Bool := x.getD 0 == 0

/-- Embedding of `registerPacket(id, struct)`: sets `struct.id = id` and
overwrites `Packets.list[id]` unconditionally; returns the updated
registry and the mutated struct object. -/
def registerPacket (list : Reg) (id : Nat) (struct : Struct) : Reg × Struct :=
  let s : Struct := { struct with id := some id }
  (fun j => if j = id then some { pname := s.sname, struct := s, size := s.size } else list j, s)

/-- Errors raisable by `hookPacket` / `guessPacketVer`: the explicit
`throw new Error('... Packet not yet register ...')`, and the JS
`TypeError` that setting a property of `undefined` would raise. -/
inductive HookErr where
  | notRegistered (fname : String)
  | typeErr
deriving DecidableEq

/-- Embedding of `hookPacket(packet, callback)`: throws when `packet.id`
is falsy, otherwise sets `Packets.list[packet.id].callback`. -/
def hookPacket (list : Reg) (packet : Struct) (cb : Nat) : Except HookErr Reg :=
  if jsFalsy packet.id then Except.error (HookErr.notRegistered packet.sname)
  else
    let pid := packet.id.getD 0
    match list pid with
    | some p => Except.ok (fun j => if j = pid then some { p with callback := some cb } else list j)
    | none => Except.error HookErr.typeErr

/-- Embedding of `guessPacketVer(packet, callback)`: same falsy guard,
then sets `Packets.list[packet.id].guess`. -/
def guessPacketVer (list : Reg) (packet : Struct) (cb : Nat) : Except HookErr Reg :=
  if jsFalsy packet.id then Except.error (HookErr.notRegistered packet.sname)
  else
    let pid := packet.id.getD 0
    match list pid with
    | some p => Except.ok (fun j => if j = pid then some { p with guess := some cb } else list j)
    | none => Except.error HookErr.typeErr

/-- Dispatch event: packet id together with the bytes between the cursor
position after the header and the frame end offset (these determine the
typed value `new packet.struct(fp, offset)` produces). -/
abbrev DEv := Nat × List Nat

/-- Guess-hook invocation event: packet id and the observed length passed
to `packet.guess(length)`. -/
abbrev GEv := Nat × Nat

/-- Outcome of one iteration of the `receive` while-loop. -/
inductive StepRes where
  | stop (save : Option (List Nat)) (pv : Nat × Nat) (g : Option GEv)
  | more (pos : Nat) (pv : Nat × Nat) (d : Option DEv) (g : Option GEv)
deriving DecidableEq

/-- New cursor position, when the loop continues. -/
def StepRes.nextPos : StepRes → Option Nat
  | StepRes.more p _ _ _ => some p
  | StepRes.stop _ _ _ => none

/-- Guess event of the iteration, if a hook was invoked. -/
def StepRes.guessEv : StepRes → Option GEv
  | StepRes.more _ _ _ g => g
  | StepRes.stop _ _ g => g

/-- Tail of one loop iteration, from the point where the frame length is
known: `offset += length`, guess-hook invocation, incomplete-frame
rollback, parse/dispatch, and the `fp.seek(offset)` for nonzero length
(`hdr` is 2 for fixed-size packets and 4 for variable ones; `pos` is the
frame start offset). -/
def stepFrame (gh : Nat → Nat → Nat × Nat → Nat × Nat) (buffer : List Nat)
    (pv : Nat × Nat) (pos : Nat) (id : Nat) (packet : Packets)
    (hdr : Nat) (length : Nat) : StepRes :=
  let endOff := pos + length
  let doGuess := packet.guess.isSome && pv.1 != pv.2
  let pv' := if doGuess then gh id length pv else pv
  let g : Option GEv := if doGuess then some (id, length) else none
  if buffer.length < endOff then
    StepRes.stop (some (buffer.drop pos)) pv' g
  else
    let d : Option DEv :=
      if packet.callback.isSome then some (id, byteSlice buffer (pos + hdr) endOff) else none
    StepRes.more (if length != 0 then endOff else pos + hdr + packet.struct.consume) pv' d g

/-- One iteration of the `receive` while-loop at cursor position `pos`:
the short-read guard (`offset + 2 >= fp.length`), identifier read,
unknown-id break, and the fixed/variable length determination with the
variable short-read guard (`offset + 4 >= fp.length`). `gh` is the
version-narrowing action of the guess hooks, `pv` the current
`PACKETVER` (min, max) pair. -/
def step (reg : Reg) (gh : Nat → Nat → Nat × Nat → Nat × Nat) (buffer : List Nat)
    (pv : Nat × Nat) (pos : Nat) : StepRes :=
  if buffer.length ≤ pos + 2 then
    StepRes.stop (some (buffer.drop pos)) pv none
  else
    match reg (lePair buffer pos) with
    | none => StepRes.stop none pv none
    | some packet =>
      if packet.size < 0 then
        if buffer.length ≤ pos + 4 then
          StepRes.stop (some (buffer.drop pos)) pv none
        else stepFrame gh buffer pv pos (lePair buffer pos) packet 4 (lePair buffer (pos + 2))
      else stepFrame gh buffer pv pos (lePair buffer pos) packet 2 packet.size.toNat

/-- The `receive` while-loop: iterate `step` while `fp.tell() < fp.length`,
collecting dispatch events, guess events, the final `_save_buffer`
(`none` models `null`) and the final `PACKETVER` pair. The fuel only
bounds iteration; `buffer.length - pos < fuel` makes it irrelevant. -/
def runL (reg : Reg) (gh : Nat → Nat → Nat × Nat → Nat × Nat) (buffer : List Nat) :
    Nat → Nat × Nat → Nat → List DEv × List GEv × Option (List Nat) × (Nat × Nat)
  | 0, pv, _ => ([], [], none, pv)
  | Nat.succ fuel, pv, pos =>
    if pos < buffer.length then
      match step reg gh buffer pv pos with
      | StepRes.stop save pv' g => ([], g.toList, save, pv')
      | StepRes.more pos' pv' d g =>
        let r := runL reg gh buffer fuel pv' pos'
        (d.toList ++ r.1, g.toList ++ r.2.1, r.2.2.1, r.2.2.2)
    else ([], [], none, pv)

/-- Cross-call reassembly state: `_save_buffer` and the `PACKETVER` pair. -/
structure RState where
  save : Option (List Nat)
  pv : Nat × Nat
deriving DecidableEq

/-- Embedding of one `receive(buf)` call: concatenate the saved buffer
with the new chunk and run the parse loop from position 0. -/
def receive (reg : Reg) (gh : Nat → Nat → Nat × Nat → Nat × Nat)
    (st : RState) (chunk : List Nat) : (List DEv × List GEv) × RState :=
  let buffer := st.save.getD [] ++ chunk
  let r := runL reg gh buffer (buffer.length + 1) st.pv 0
  ((r.1, r.2.1), ⟨r.2.2.1, r.2.2.2⟩)

/-- Deliver a list of chunks through successive `receive` calls,
concatenating the dispatch events. -/
def receiveAll (reg : Reg) (gh : Nat → Nat → Nat × Nat → Nat × Nat) :
    RState → List (List Nat) → List DEv × RState
  | st, [] => ([], st)
  | st, c :: cs =>
    let r := receive reg gh st c
    let r2 := receiveAll reg gh r.2 cs
    (r.1.1 ++ r2.1, r2.2)

/-- Transport socket handle. `sid` identifies the JS object (reference
identity); `isZone` is set by `connect` via `socket.isZone = !!isZone`;
`hasPing` tells whether `socket.ping` holds an interval handle. The field
`izZone` models the property of that exact name read by `close()`: no
statement anywhere in the source assigns `izZone`, so on every socket the
code creates it is `undefined`, i.e. falsy. -/
structure Socket where
  sid : Nat
  isZone : Bool
  izZone : Bool
  hasPing : Bool
deriving DecidableEq

/-- Socket construction as performed by `connect`:
`socket.isZone = !!isZone`, no ping armed yet and — since nothing in the
source writes `izZone` — that property left undefined (falsy). -/
def mkSocket (sid : Nat) (isZone : Bool) : Socket :=
  { sid := sid, isZone := isZone, izZone := false, hasPing := false }

/-- Module state of the manager: `_sockets` and `_socket` (the active
reference), plus whether `PacketCrypt` is currently armed. -/
structure NetState where
  sockets : List Socket
  socket : Option Socket
  cryptOn : Bool
deriving DecidableEq

/-- Observable actions of the manager, in program order: socket close,
`clearInterval` on a ping handle, bytes handed to the transport,
`PacketCrypt.process` application, `PacketCrypt.reset`, and the
disconnect error box shown by `onClose`. -/
inductive Eff where
  | closeSock (sid : Nat)
  | clearPing (sid : Nat)
  | sendBytes (sid : Nat) (b : List Nat)
  | cryptProcess (b : List Nat)
  | cryptReset
  | errorBox
deriving DecidableEq

/-- Embedding of `send(buffer)`: forwards to `_socket` when set, silently
does nothing otherwise. -/
def send (st : NetState) (buffer : List Nat) : List Eff :=
  match st.socket with
  | some s => [Eff.sendBytes s.sid buffer]
  | none => []

/-- Embedding of `sendPacket(Packet)`: after `Packet.build()` (the bytes
`pkt`), applies `PacketCrypt.process` in place when `_socket && _socket.isZone`,
then `send(pkt.buffer)`. `cryptF` is the byte transform of the cipher. -/
def sendPacket (cryptF : List Nat → List Nat) (st : NetState) (pkt : List Nat) : List Eff :=
  match st.socket with
  | some s =>
    if s.isZone then Eff.cryptProcess pkt :: send st (cryptF pkt)
    else send st pkt
  | none => send st pkt

/-- Embedding of `close()`: if `_socket` is set, close it, reset
`PacketCrypt` when `_socket.izZone` (sic) is truthy, clear its ping
interval when armed, clear the active reference and splice the socket
out of `_sockets`. -/
def close (st : NetState) : NetState × List Eff :=
  match st.socket with
  | none => (st, [])
  | some s =>
    ({ sockets := st.sockets.erase s, socket := none,
       cryptOn := if s.izZone then false else st.cryptOn },
     Eff.closeSock s.sid
       :: ((if s.izZone then [Eff.cryptReset] else [])
            ++ (if s.hasPing then [Eff.clearPing s.sid] else [])))

/-- Embedding of the `onClose` transport notification for socket `s`
(the JS `this`): when `s` is the active socket, clear its ping interval
and surface the disconnect error box; in every case splice `s` out of
`_sockets`. The active reference `_socket` is not touched. -/
def onClose (s : Socket) (st : NetState) : NetState × List Eff :=
  ({ st with sockets := st.sockets.erase s },
   if st.socket = some s then
     (if s.hasPing then [Eff.clearPing s.sid] else []) ++ [Eff.errorBox]
   else [])

/-- Empty registry. -/
def reg0 : Reg := fun _ => none

/-- Zone-flagged socket fixture, as `connect` would build it. -/
def zsock : Socket := mkSocket 1 true

/-- Manager state with the zone socket active and the cipher armed. -/
def zstate : NetState := { sockets := [zsock], socket := some zsock, cryptOn := true }

/-- C2, claim as stated is false: re-registering identifier 5 does not
fail and does not leave the existing binding unchanged — the second
definition silently replaces the first. -/
theorem registerPacket_dup_cex :
    ((registerPacket ((registerPacket reg0 5 ⟨"A", 10, 0, none⟩).1) 5 ⟨"B", 12, 0, none⟩).1) 5
      ≠ ((registerPacket reg0 5 ⟨"A", 10, 0, none⟩).1) 5
    ∧ ((registerPacket ((registerPacket reg0 5 ⟨"A", 10, 0, none⟩).1) 5 ⟨"B", 12, 0, none⟩).1) 5
      = some ⟨"B", ⟨"B", 12, 0, some 5⟩, 12, none, none⟩ := by
  constructor
  · decide
  · rfl

/-- C2 (amended): `registerPacket` never fails; registering an identifier
that is already bound silently replaces the existing binding with the new
definition — there is no `DuplicateIdentifier` check. -/
theorem registerPacket_always_overwrites (list : Reg) (id : Nat) (s₁ s₂ : Struct) :
    ((registerPacket list id s₂).1) id
      = some { pname := s₂.sname, struct := { s₂ with id := some id },
               size := s₂.size, callback := none, guess := none }
    ∧ ((registerPacket ((registerPacket list id s₁).1) id s₂).1) id
      = some { pname := s₂.sname, struct := { s₂ with id := some id },
               size := s₂.size, callback := none, guess := none } := by
  constructor <;> simp [registerPacket]

/-- C9, claim as stated is false: a packet registered under identifier 0
cannot be hooked — both binding operations raise the not-registered
error, although the registry does hold a binding for id 0. -/
theorem hook_id_zero_cex :
    hookPacket ((registerPacket reg0 0 ⟨"ZERO", 6, 0, none⟩).1)
        ((registerPacket reg0 0 ⟨"ZERO", 6, 0, none⟩).2) 7
      = Except.error (HookErr.notRegistered "ZERO")
    ∧ guessPacketVer ((registerPacket reg0 0 ⟨"ZERO", 6, 0, none⟩).1)
        ((registerPacket reg0 0 ⟨"ZERO", 6, 0, none⟩).2) 7
      = Except.error (HookErr.notRegistered "ZERO")
    ∧ ((registerPacket reg0 0 ⟨"ZERO", 6, 0, none⟩).1) 0 ≠ none := by
  refine ⟨rfl, rfl, by decide⟩

/-- Binding held for identifier `j` after a hook call, when it succeeded. -/
def bindAt (r : Except HookErr Reg) (j : Nat) : Option (Option Packets) :=
  match r with
  | Except.ok l => some (l j)
  | Except.error _ => none

/-- C9 (amended): binding a handler (or a version-guess hook) to a packet
whose `id` property is unset fails with the not-registered error; after a
registration under a nonzero identifier both bindings succeed and update
the entry; but a packet registered under identifier 0 also fails with the
not-registered error, because the guard treats the falsy id 0 as absent. -/
theorem hook_guard_behaviour (list : Reg) (s : Struct) (id cb : Nat) :
    (s.id = none →
      hookPacket list s cb = Except.error (HookErr.notRegistered s.sname)
      ∧ guessPacketVer list s cb = Except.error (HookErr.notRegistered s.sname))
    ∧ (id ≠ 0 →
      bindAt (hookPacket ((registerPacket list id s).1) ((registerPacket list id s).2) cb) id
        = some (some { pname := s.sname, struct := { s with id := some id },
                       size := s.size, callback := some cb, guess := none }))
    ∧ (id ≠ 0 →
      bindAt (guessPacketVer ((registerPacket list id s).1) ((registerPacket list id s).2) cb) id
        = some (some { pname := s.sname, struct := { s with id := some id },
                       size := s.size, callback := none, guess := some cb }))
    ∧ hookPacket ((registerPacket list 0 s).1) ((registerPacket list 0 s).2) cb
        = Except.error (HookErr.notRegistered s.sname)
    ∧ guessPacketVer ((registerPacket list 0 s).1) ((registerPacket list 0 s).2) cb
        = Except.error (HookErr.notRegistered s.sname) := by
  refine ⟨fun h => ?_, fun h => ?_, fun h => ?_, ?_, ?_⟩
  · constructor <;> simp [hookPacket, guessPacketVer, jsFalsy, h]
  · simp [bindAt, hookPacket, jsFalsy, registerPacket, h]
  · simp [bindAt, guessPacketVer, jsFalsy, registerPacket, h]
  · simp [hookPacket, jsFalsy, registerPacket]
  · simp [guessPacketVer, jsFalsy, registerPacket]

/-- Witness for `hook_guard_behaviour` at a concrete registry. -/
theorem hook_guard_behaviour_witness :
    bindAt (hookPacket ((registerPacket reg0 5 ⟨"A", 10, 0, none⟩).1)
        ((registerPacket reg0 5 ⟨"A", 10, 0, none⟩).2) 7) 5
      = some (some { pname := "A", struct := ⟨"A", 10, 0, some 5⟩,
                     size := 10, callback := some 7, guess := none })
    ∧ hookPacket ((registerPacket reg0 0 ⟨"A", 10, 0, none⟩).1)
        ((registerPacket reg0 0 ⟨"A", 10, 0, none⟩).2) 7
      = Except.error (HookErr.notRegistered "A") :=
  ⟨(hook_guard_behaviour reg0 ⟨"A", 10, 0, none⟩ 5 7).2.1 (by decide),
   (hook_guard_behaviour reg0 ⟨"A", 10, 0, none⟩ 0 7).2.2.2.1⟩

/-- C3: on a zone socket built by `connect` (so with `izZone` undefined),
`close()` closes the socket, cancels its ping, removes it from the
tracked list and clears the active reference, but never resets
`PacketCrypt`, because it tests the misspelled property `izZone`. -/
theorem close_zone_misses_crypt_reset (st : NetState) (s : Socket)
    (hact : st.socket = some s) (_hzone : s.isZone = true) (hiz : s.izZone = false) :
    (close st).1.socket = none
    ∧ (close st).1.sockets = st.sockets.erase s
    ∧ (close st).1.cryptOn = st.cryptOn
    ∧ (close st).2 = Eff.closeSock s.sid :: (if s.hasPing then [Eff.clearPing s.sid] else [])
    ∧ Eff.cryptReset ∉ (close st).2 := by
  refine ⟨by simp [close, hact, hiz], by simp [close, hact, hiz], by simp [close, hact, hiz],
    by simp [close, hact, hiz], ?_⟩
  simp only [close, hact, hiz]
  cases s.hasPing <;> simp

/-- Witness for `close_zone_misses_crypt_reset` on the zone fixture. -/
theorem close_zone_misses_crypt_reset_witness :
    (close zstate).1.socket = none
    ∧ (close zstate).1.sockets = zstate.sockets.erase zsock
    ∧ (close zstate).1.cryptOn = zstate.cryptOn
    ∧ (close zstate).2 = Eff.closeSock zsock.sid
        :: (if zsock.hasPing then [Eff.clearPing zsock.sid] else [])
    ∧ Eff.cryptReset ∉ (close zstate).2 :=
  close_zone_misses_crypt_reset zstate zsock (by decide) (by decide) (by decide)

/-- C5, claim as stated is false: on the zone connection, a payload going
out through the raw `send` operation reaches the transport untransformed —
no `PacketCrypt.process` application occurs. -/
theorem send_raw_zone_cex :
    send zstate [1, 2, 3] = [Eff.sendBytes 1 [1, 2, 3]]
    ∧ zsock.isZone = true
    ∧ zstate.socket = some zsock
    ∧ Eff.cryptProcess [1, 2, 3] ∉ send zstate [1, 2, 3] := by
  decide

/-- C5 (amended): a payload sent with `sendPacket` while the active socket
is zone-flagged passes through `PacketCrypt.process` before the transport,
and a payload sent with `sendPacket` on a non-zone active socket does not;
the raw `send` operation always forwards its bytes untransformed,
regardless of the zone flag. -/
theorem send_crypt_zone_policy (cryptF : List Nat → List Nat) (st : NetState)
    (pkt : List Nat) (s : Socket) (hact : st.socket = some s) :
    (s.isZone = true →
      sendPacket cryptF st pkt = [Eff.cryptProcess pkt, Eff.sendBytes s.sid (cryptF pkt)])
    ∧ (s.isZone = false → sendPacket cryptF st pkt = [Eff.sendBytes s.sid pkt])
    ∧ send st pkt = [Eff.sendBytes s.sid pkt] := by
  refine ⟨fun h => ?_, fun h => ?_, ?_⟩
  · simp [sendPacket, send, hact, h]
  · simp [sendPacket, send, hact, h]
  · simp [send, hact]

/-- Witness for `send_crypt_zone_policy` on the zone fixture. -/
theorem send_crypt_zone_policy_witness :
    sendPacket (fun b => b.map (· + 1)) zstate [1, 2, 3]
      = [Eff.cryptProcess [1, 2, 3], Eff.sendBytes 1 [2, 3, 4]]
    ∧ send zstate [1, 2, 3] = [Eff.sendBytes 1 [1, 2, 3]] :=
  ⟨(send_crypt_zone_policy (fun b => b.map (· + 1)) zstate [1, 2, 3] zsock rfl).1 rfl,
   (send_crypt_zone_policy (fun b => b.map (· + 1)) zstate [1, 2, 3] zsock rfl).2.2⟩

/-- C10: when the transport reports that the active socket closed, the
handler clears its ping and removes it from the tracked list, but leaves
`_socket` pointing at the closed socket, so a following `send` still
forwards bytes to it — unlike the no-active-socket case, where `send`
is a silent no-op. -/
theorem onClose_active_stays (st : NetState) (s : Socket) (b : List Nat)
    (hact : st.socket = some s) :
    (onClose s st).1.socket = some s
    ∧ (onClose s st).1.sockets = st.sockets.erase s
    ∧ (onClose s st).2 = (if s.hasPing then [Eff.clearPing s.sid] else []) ++ [Eff.errorBox]
    ∧ send (onClose s st).1 b = [Eff.sendBytes s.sid b]
    ∧ (∀ st' : NetState, st'.socket = none → send st' b = []) := by
  refine ⟨by simp [onClose, hact], by simp [onClose, hact], by simp [onClose, hact],
    by simp [onClose, send, hact], fun st' h => by simp [send, h]⟩

/-- Witness for `onClose_active_stays` on the zone fixture. -/
theorem onClose_active_stays_witness :
    (onClose zsock zstate).1.socket = some zsock
    ∧ (onClose zsock zstate).1.sockets = zstate.sockets.erase zsock
    ∧ (onClose zsock zstate).2
        = (if zsock.hasPing then [Eff.clearPing zsock.sid] else []) ++ [Eff.errorBox]
    ∧ send (onClose zsock zstate).1 [9] = [Eff.sendBytes zsock.sid [9]]
    ∧ (∀ st' : NetState, st'.socket = none → send st' [9] = []) :=
  onClose_active_stays zstate zsock [9] rfl

/-- Fixed-size test packet, id 1, size 3, handler bound. -/
def fixPackA : Packets :=
  { pname := "A", struct := ⟨"A", 3, 0, some 1⟩, size := 3, callback := some 7, guess := none }

/-- Variable-size test packet, id 2, handler bound. -/
def varPackV : Packets :=
  { pname := "V", struct := ⟨"V", -1, 0, some 2⟩, size := -1, callback := some 8, guess := none }

/-- Fixed-size test packet, id 3, size 26, with a version-guess hook. -/
def guessPackG : Packets :=
  { pname := "G", struct := ⟨"G", 26, 0, some 3⟩, size := 26, callback := some 9, guess := some 1 }

/-- Fixed-size test packet, id 4, size 2 (identifier only), handler
bound. -/
def shortPackS : Packets :=
  { pname := "S", struct := ⟨"S", 2, 0, some 4⟩, size := 2, callback := some 5, guess := none }

/-- Test registry holding the four fixture packets. -/
def tReg : Reg := fun j =>
  if j = 1 then some fixPackA
  else if j = 2 then some varPackV
  else if j = 3 then some guessPackG
  else if j = 4 then some shortPackS
  else none

/-- Version-narrowing action that leaves the range unchanged. -/
def gh0 : Nat → Nat → Nat × Nat → Nat × Nat := fun _ _ pv => pv

/-- C4, claim as stated is false: with exactly 2 bytes remaining the loop
saves them as carry-over without reading the identifier (which is
registered), and with exactly 4 bytes remaining on a variable-size frame
it saves them without reading the length field. -/
theorem short_read_exact_cex :
    step tReg gh0 [1, 0] (20, 30) 0 = StepRes.stop (some [1, 0]) (20, 30) none
    ∧ tReg (lePair [1, 0] 0) = some fixPackA
    ∧ [1, 0].length = 0 + 2
    ∧ step tReg gh0 [2, 0, 4, 0] (20, 30) 0 = StepRes.stop (some [2, 0, 4, 0]) (20, 30) none
    ∧ tReg (lePair [2, 0, 4, 0] 0) = some varPackV
    ∧ varPackV.size < 0
    ∧ [2, 0, 4, 0].length = 0 + 4 := by decide

/-- C4 (amended): the loop saves carry-over and stops at step 1 whenever
at most 2 bytes remain (so also with exactly 2, when an identifier would
fit), and at step 3 of a variable-size frame whenever at most 4 bytes
remain from the frame start (so also with exactly 4, when the length
field would fit); in both cases the whole remainder is saved and no
event is emitted. -/
theorem short_read_boundaries (reg : Reg) (gh : Nat → Nat → Nat × Nat → Nat × Nat)
    (buffer : List Nat) (pv : Nat × Nat) (pos : Nat) :
    (buffer.length ≤ pos + 2 →
      step reg gh buffer pv pos = StepRes.stop (some (buffer.drop pos)) pv none)
    ∧ (∀ p, reg (lePair buffer pos) = some p → p.size < 0 →
        pos + 2 < buffer.length → buffer.length ≤ pos + 4 →
        step reg gh buffer pv pos = StepRes.stop (some (buffer.drop pos)) pv none) := by
  constructor
  · intro h
    simp [step, h]
  · intro p hp hsz h2 h4
    simp [step, hp, hsz, h4, Nat.not_le.mpr h2]

/-- Witness for `short_read_boundaries` on concrete buffers. -/
theorem short_read_boundaries_witness :
    step tReg gh0 [1, 0] (20, 30) 0 = StepRes.stop (some ([1, 0].drop 0)) (20, 30) none
    ∧ step tReg gh0 [2, 0, 4, 0] (20, 30) 0
      = StepRes.stop (some ([2, 0, 4, 0].drop 0)) (20, 30) none :=
  ⟨(short_read_boundaries tReg gh0 [1, 0] (20, 30) 0).1 (by decide),
   (short_read_boundaries tReg gh0 [2, 0, 4, 0] (20, 30) 0).2 varPackV
     (by decide) (by decide) (by decide) (by decide)⟩

/-- C8, claim as stated is false: a fully present variable-size frame of
declared total length 0 does not advance the cursor to the start of its
identifier (0 bytes past the frame start); the cursor is left after the
4-byte header instead. -/
theorem variable_zero_len_cex :
    lePair [2, 0, 0, 0, 9, 9, 9] (0 + 2) = 0
    ∧ (step tReg gh0 [2, 0, 0, 0, 9, 9, 9] (20, 30) 0).nextPos
        ≠ some (0 + lePair [2, 0, 0, 0, 9, 9, 9] (0 + 2))
    ∧ (step tReg gh0 [2, 0, 0, 0, 9, 9, 9] (20, 30) 0).nextPos = some 4 := by decide

/-- C8 (amended): for a fully present variable-size frame of declared
total length `L ≥ 1`, the cursor is advanced to exactly `L` bytes past
the frame start, whatever the parse function consumes; for `L = 0` the
seek is skipped and the cursor is left after the 4-byte header plus the
parser's own consumption. -/
theorem variable_frame_cursor_advance (reg : Reg) (gh : Nat → Nat → Nat × Nat → Nat × Nat)
    (buffer : List Nat) (pv : Nat × Nat) (pos : Nat) (p : Packets)
    (hp : reg (lePair buffer pos) = some p) (hv : p.size < 0)
    (hhdr : pos + 4 < buffer.length)
    (hend : pos + lePair buffer (pos + 2) ≤ buffer.length) :
    (1 ≤ lePair buffer (pos + 2) →
      (step reg gh buffer pv pos).nextPos = some (pos + lePair buffer (pos + 2)))
    ∧ (lePair buffer (pos + 2) = 0 →
      (step reg gh buffer pv pos).nextPos = some (pos + 4 + p.struct.consume)) := by
  constructor
  · intro hL
    simp only [step, stepFrame, hp, if_neg (by omega : ¬ buffer.length ≤ pos + 2),
      if_pos hv, if_neg (by omega : ¬ buffer.length ≤ pos + 4),
      if_neg (by omega : ¬ buffer.length < pos + lePair buffer (pos + 2))]
    simp [StepRes.nextPos, Nat.ne_of_gt hL]
  · intro hL
    simp only [step, stepFrame, hp, if_neg (by omega : ¬ buffer.length ≤ pos + 2),
      if_pos hv, if_neg (by omega : ¬ buffer.length ≤ pos + 4),
      if_neg (by omega : ¬ buffer.length < pos + lePair buffer (pos + 2))]
    simp [StepRes.nextPos, hL]

/-- Witness for `variable_frame_cursor_advance`: the spec's own scenario
(declared length 8, cursor advanced to offset 8) and the length-0 frame. -/
theorem variable_frame_cursor_advance_witness :
    (step tReg gh0 [2, 0, 8, 0, 5, 6, 7, 8, 1, 0, 7] (20, 30) 0).nextPos
      = some (0 + lePair [2, 0, 8, 0, 5, 6, 7, 8, 1, 0, 7] (0 + 2))
    ∧ (step tReg gh0 [2, 0, 0, 0, 9, 9, 9] (20, 30) 0).nextPos
      = some (0 + 4 + varPackV.struct.consume) :=
  ⟨(variable_frame_cursor_advance tReg gh0 [2, 0, 8, 0, 5, 6, 7, 8, 1, 0, 7] (20, 30) 0 varPackV
      (by decide) (by decide) (by decide) (by decide)).1 (by decide),
   (variable_frame_cursor_advance tReg gh0 [2, 0, 0, 0, 9, 9, 9] (20, 30) 0 varPackV
      (by decide) (by decide) (by decide) (by decide)).2 (by decide)⟩

/-- C6, claim as stated is false: for an incomplete frame (declared end
beyond the available bytes) whose definition has a guess hook, the hook
is invoked — a guess event is produced — in the very iteration that rolls
the cursor back and saves the frame as carry-over. -/
theorem guess_on_incomplete_cex :
    step tReg gh0 [3, 0, 1, 2, 3] (20, 30) 0
      = StepRes.stop (some [3, 0, 1, 2, 3]) (20, 30) (some (3, 26))
    ∧ (step tReg gh0 [3, 0, 1, 2, 3] (20, 30) 0).guessEv ≠ none := by decide

/-- C6 (amended): the version-guess invocation precedes the
incomplete-frame check: for a frame whose declared end offset exceeds the
available bytes, the guess hook — when bound and with the version range
still ambiguous — is invoked with the declared length, and then the
cursor is rolled back to the frame start and everything from there is
saved as carry-over. -/
theorem guess_before_rollback (reg : Reg) (gh : Nat → Nat → Nat × Nat → Nat × Nat)
    (buffer : List Nat) (pv : Nat × Nat) (pos : Nat) (p : Packets) (hdr L : Nat)
    (hp : reg (lePair buffer pos) = some p)
    (hL : if p.size < 0 then hdr = 4 ∧ pos + 4 < buffer.length ∧ L = lePair buffer (pos + 2)
          else hdr = 2 ∧ pos + 2 < buffer.length ∧ L = p.size.toNat)
    (hend : buffer.length < pos + L) :
    step reg gh buffer pv pos
      = StepRes.stop (some (buffer.drop pos))
          (if p.guess.isSome && pv.1 != pv.2 then gh (lePair buffer pos) L pv else pv)
          (if p.guess.isSome && pv.1 != pv.2 then some (lePair buffer pos, L) else none) := by
  by_cases hv : p.size < 0
  · rw [if_pos hv] at hL
    obtain ⟨-, h4, hLe⟩ := hL
    subst hLe
    simp only [step, stepFrame, hp, if_neg (by omega : ¬ buffer.length ≤ pos + 2),
      if_pos hv, if_neg (by omega : ¬ buffer.length ≤ pos + 4), if_pos hend]
  · rw [if_neg hv] at hL
    obtain ⟨-, h2, hLe⟩ := hL
    subst hLe
    simp only [step, stepFrame, hp, if_neg (by omega : ¬ buffer.length ≤ pos + 2),
      if_neg hv, if_pos hend]

/-- Witness for `guess_before_rollback` on the fixture registry. -/
theorem guess_before_rollback_witness :
    step tReg gh0 [3, 0, 1, 2, 3] (20, 30) 0
      = StepRes.stop (some ([3, 0, 1, 2, 3].drop 0))
          (if guessPackG.guess.isSome && (20 : Nat) != (30 : Nat) then
            gh0 (lePair [3, 0, 1, 2, 3] 0) 26 (20, 30) else (20, 30))
          (if guessPackG.guess.isSome && (20 : Nat) != (30 : Nat) then
            some (lePair [3, 0, 1, 2, 3] 0, 26) else none) :=
  guess_before_rollback tReg gh0 [3, 0, 1, 2, 3] (20, 30) 0 guessPackG 2 26
    (by decide) (by decide) (by decide)

/-- Reading inside the left part of an append is reading the left part. -/
theorem getD_shift (A C : List Nat) (i : Nat) :
    (A ++ C).getD (A.length + i) 0 = C.getD i 0 := by
  rw [List.getD_append_right A C 0 (A.length + i) (by omega)]
  congr 1
  omega

/-- A 16-bit read shifted past an appended prefix. -/
theorem lePair_shift (A C : List Nat) (p : Nat) :
    lePair (A ++ C) (A.length + p) = lePair C p := by
  unfold lePair
  rw [show A.length + p + 1 = A.length + (p + 1) by omega, getD_shift, getD_shift]

/-- A drop shifted past an appended prefix. -/
theorem drop_shift (A C : List Nat) (i : Nat) :
    (A ++ C).drop (A.length + i) = C.drop i := by
  rw [← List.drop_drop, List.drop_left]

/-- A slice shifted past an appended prefix. -/
theorem byteSlice_shift (A C : List Nat) (a b : Nat) :
    byteSlice (A ++ C) (A.length + a) (A.length + b) = byteSlice C a b := by
  unfold byteSlice
  rw [drop_shift, show A.length + b - (A.length + a) = b - a by omega]

/-- Two buffers agreeing on a common prefix read the same bytes there. -/
theorem getD_eq_of_pre (B t C u : List Nat) (h : B ++ t = C ++ u) (i : Nat)
    (hB : i < B.length) (hC : i < C.length) : B.getD i 0 = C.getD i 0 := by
  have h1 : (B ++ t).getD i 0 = B.getD i 0 := List.getD_append B t 0 i hB
  have h2 : (C ++ u).getD i 0 = C.getD i 0 := List.getD_append C u 0 i hC
  rw [← h1, h, h2]

/-- Two buffers agreeing on a common prefix take the same 16-bit reads
there. -/
theorem lePair_eq_of_pre (B t C u : List Nat) (h : B ++ t = C ++ u) (o : Nat)
    (hB : o + 1 < B.length) (hC : o + 1 < C.length) : lePair B o = lePair C o := by
  unfold lePair
  rw [getD_eq_of_pre B t C u h o (by omega) (by omega),
    getD_eq_of_pre B t C u h (o + 1) hB hC]

/-- Rebasing of a step outcome after an appended prefix: continuation
positions are absolute, everything else is untouched. -/
def StepRes.shift (k : Nat) : StepRes → StepRes
  | StepRes.stop s pv g => StepRes.stop s pv g
  | StepRes.more p pv d g => StepRes.more (k + p) pv d g

/-- One loop iteration only looks at the buffer from the cursor on:
executing it past an appended prefix is executing it on the suffix. -/
theorem stepFrame_shift (gh : Nat → Nat → Nat × Nat → Nat × Nat) (A C : List Nat)
    (pv : Nat × Nat) (pos id : Nat) (p : Packets) (hdr length : Nat) :
    stepFrame gh (A ++ C) pv (A.length + pos) id p hdr length
      = StepRes.shift A.length (stepFrame gh C pv pos id p hdr length) := by
  simp only [stepFrame, List.length_append]
  by_cases he : C.length < pos + length
  · rw [if_pos (by omega), if_pos he]
    simp [StepRes.shift, drop_shift]
  · rw [if_neg (by omega), if_neg he]
    simp only [StepRes.shift]
    rw [show A.length + pos + length = A.length + (pos + length) by omega,
      show A.length + pos + hdr = A.length + (pos + hdr) by omega,
      byteSlice_shift]
    by_cases hz : length != 0
    · rw [if_pos hz, if_pos hz]
    · rw [if_neg hz, if_neg hz]
      rw [show A.length + (pos + hdr) + p.struct.consume
            = A.length + (pos + hdr + p.struct.consume) by omega]

/-- The while-loop body, executed past an appended prefix, is the body
on the suffix with its continuation position rebased. -/
theorem step_shift (reg : Reg) (gh : Nat → Nat → Nat × Nat → Nat × Nat) (A C : List Nat)
    (pv : Nat × Nat) (pos : Nat) :
    step reg gh (A ++ C) pv (A.length + pos) = StepRes.shift A.length (step reg gh C pv pos) := by
  simp only [step, List.length_append]
  by_cases h1 : C.length ≤ pos + 2
  · rw [if_pos (by omega), if_pos h1]
    simp [StepRes.shift, drop_shift]
  · rw [if_neg (by omega), if_neg h1, lePair_shift]
    cases hr : reg (lePair C pos) with
    | none => simp [StepRes.shift]
    | some p =>
      dsimp only
      by_cases hv : p.size < 0
      · rw [if_pos hv, if_pos hv]
        by_cases h4 : C.length ≤ pos + 4
        · rw [if_pos (by omega), if_pos h4]
          simp [StepRes.shift, drop_shift]
        · rw [if_neg (by omega), if_neg h4,
            show A.length + pos + 2 = A.length + (pos + 2) by omega, lePair_shift,
            stepFrame_shift]
      · rw [if_neg hv, if_neg hv, stepFrame_shift]

/-- The while-loop, started past an appended prefix, is the loop on the
suffix. -/
theorem runL_shift (reg : Reg) (gh : Nat → Nat → Nat × Nat → Nat × Nat) (A C : List Nat) :
    ∀ (fuel : Nat) (pv : Nat × Nat) (pos : Nat),
    runL reg gh (A ++ C) fuel pv (A.length + pos) = runL reg gh C fuel pv pos := by
  intro fuel
  induction fuel with
  | zero => intro pv pos; rfl
  | succ fuel ih =>
    intro pv pos
    simp only [runL, List.length_append]
    by_cases h : pos < C.length
    · rw [if_pos (by omega), if_pos h, step_shift]
      cases hs : step reg gh C pv pos with
      | stop s pv' g => simp [StepRes.shift]
      | more p' pv' d g =>
        simp only [StepRes.shift]
        rw [ih pv' p']
    · rw [if_neg (by omega), if_neg h]

/-- A continued iteration strictly advances the cursor (header width at
least 1). -/
theorem stepFrame_more_lt (gh : Nat → Nat → Nat × Nat → Nat × Nat) (buffer : List Nat)
    (pv : Nat × Nat) (pos id : Nat) (p : Packets) (hdr length : Nat) (hh : 1 ≤ hdr) :
    ∀ p' pv' d g, stepFrame gh buffer pv pos id p hdr length = StepRes.more p' pv' d g →
      pos < p' := by
  intro p' pv' d g h
  simp only [stepFrame] at h
  by_cases he : buffer.length < pos + length
  · rw [if_pos he] at h
    cases h
  · rw [if_neg he] at h
    have h1 := (StepRes.more.injEq _ _ _ _ _ _ _ _).mp h
    by_cases hz : length != 0
    · rw [if_pos hz] at h1
      have : 1 ≤ length := by
        rcases Nat.eq_zero_or_pos length with h0 | h0
        · subst h0; simp at hz
        · exact h0
      omega
    · rw [if_neg hz] at h1
      omega

/-- The loop body strictly advances the cursor whenever it continues. -/
theorem step_more_lt (reg : Reg) (gh : Nat → Nat → Nat × Nat → Nat × Nat) (buffer : List Nat)
    (pv : Nat × Nat) (pos : Nat) :
    ∀ p' pv' d g, step reg gh buffer pv pos = StepRes.more p' pv' d g → pos < p' := by
  intro p' pv' d g h
  simp only [step] at h
  by_cases h1 : buffer.length ≤ pos + 2
  · rw [if_pos h1] at h; cases h
  · rw [if_neg h1] at h
    cases hr : reg (lePair buffer pos) with
    | none => rw [hr] at h; cases h
    | some p =>
      rw [hr] at h
      dsimp only at h
      by_cases hv : p.size < 0
      · rw [if_pos hv] at h
        by_cases h4 : buffer.length ≤ pos + 4
        · rw [if_pos h4] at h; cases h
        · rw [if_neg h4] at h
          exact stepFrame_more_lt gh buffer pv pos _ p 4 _ (by omega) p' pv' d g h
      · rw [if_neg hv] at h
        exact stepFrame_more_lt gh buffer pv pos _ p 2 _ (by omega) p' pv' d g h

/-- The loop result does not depend on the fuel, as long as the fuel
exceeds the remaining bytes. -/
theorem runL_fuel (reg : Reg) (gh : Nat → Nat → Nat × Nat → Nat × Nat) (buffer : List Nat) :
    ∀ (f₁ f₂ : Nat) (pv : Nat × Nat) (pos : Nat),
    buffer.length - pos < f₁ → buffer.length - pos < f₂ →
    runL reg gh buffer f₁ pv pos = runL reg gh buffer f₂ pv pos := by
  intro f₁
  induction f₁ with
  | zero => intro f₂ pv pos h1 h2; omega
  | succ n ih =>
    intro f₂ pv pos h1 h2
    cases f₂ with
    | zero => omega
    | succ m =>
      simp only [runL]
      by_cases hp : pos < buffer.length
      · rw [if_pos hp, if_pos hp]
        cases hs : step reg gh buffer pv pos with
        | stop s pv' g => rfl
        | more p' pv' d g =>
          have hlt := step_more_lt reg gh buffer pv pos p' pv' d g hs
          dsimp only
          rw [ih m pv' p' (by omega) (by omega)]
      · rw [if_neg hp, if_neg hp]

/-- Header width of a packet definition: 2 bytes of identifier, plus the
2-byte length field when the declared size is the variable sentinel. -/
def hdrOf (p : Packets) : Nat := if p.size < 0 then 4 else 2

/-- A well-formed frame for registry `reg`: its identifier is registered
with a dispatch handler bound, and its byte length agrees with the
definition — equal to the declared fixed size, or, for a variable-size
definition, at least 4 with the embedded 16-bit length field equal to
the frame's total length. -/
def validFrame (reg : Reg) (F : List Nat) : Bool :=
  match reg (lePair F 0) with
  | none => false
  | some p =>
    p.callback.isSome &&
      (if p.size < 0 then decide (4 ≤ F.length) && (lePair F 2 == F.length)
       else decide ((F.length : Int) = p.size) && decide (2 ≤ F.length))

/-- The dispatch event a frame produces: its identifier and its bytes
after the header. -/
def evOf (reg : Reg) (F : List Nat) : DEv :=
  (lePair F 0, F.drop (match reg (lePair F 0) with | some p => hdrOf p | none => 2))

/-- Minimal buffer extent (from the frame start) the loop requires before
it will process a frame rather than save carry-over: the `>=` guards
demand strictly more than 2 bytes at step 1 and strictly more than 4 at
step 3 of a variable-size frame. -/
def minStand (reg : Reg) (F : List Nat) : Nat :=
  match reg (lePair F 0) with
  | some p => if p.size < 0 then 5 else 3
  | none => 0

/-- The trailing-frame condition: the last frame (if any) must be long
enough to stand alone at the end of the stream. -/
def lastOk (reg : Reg) (frames : List (List Nat)) : Bool :=
  match frames.getLast? with
  | none => true
  | some F => decide (minStand reg F ≤ F.length)

/-- Reference splitter: how many leading frames of `gs` the loop consumes
out of a buffer `B` (a prefix of the frames' concatenation), and the
leftover bytes it saves. A frame is consumed when the buffer holds it
entirely and extends past the `>=` guards (`minStand`). -/
def takeFrames (reg : Reg) : List (List Nat) → List Nat → List (List Nat) × List Nat
  | [], B => ([], B)
  | F :: rest, B =>
    if max F.length (minStand reg F) ≤ B.length then
      let r := takeFrames reg rest (B.drop F.length)
      (F :: r.1, r.2)
    else ([], B)

/-- The `_save_buffer` value corresponding to leftover bytes: `null` when
nothing is left. -/
def optOf (L : List Nat) : Option (List Nat) := if L = [] then none else some L

/-- Unpacking of `validFrame`: the registered definition, its bound
handler and the length discipline of the frame. -/
theorem validFrame_unpack (reg : Reg) (F : List Nat) (h : validFrame reg F = true) :
    ∃ p, reg (lePair F 0) = some p ∧ p.callback.isSome = true
      ∧ ((p.size < 0 ∧ 4 ≤ F.length ∧ lePair F 2 = F.length)
        ∨ (0 ≤ p.size ∧ (F.length : Int) = p.size ∧ 2 ≤ F.length)) := by
  unfold validFrame at h
  cases hr : reg (lePair F 0) with
  | none => rw [hr] at h; cases h
  | some p =>
    rw [hr] at h
    dsimp only at h
    rw [Bool.and_eq_true] at h
    refine ⟨p, rfl, h.1, ?_⟩
    have h2 := h.2
    by_cases hv : p.size < 0
    · rw [if_pos hv, Bool.and_eq_true] at h2
      exact Or.inl ⟨hv, by simpa using h2.1, by simpa using h2.2⟩
    · rw [if_neg hv, Bool.and_eq_true] at h2
      exact Or.inr ⟨by omega, by simpa using h2.1, by simpa using h2.2⟩

/-- A well-formed frame holds at least its identifier. -/
theorem validFrame_len2 (reg : Reg) (F : List Nat) (h : validFrame reg F = true) :
    2 ≤ F.length := by
  obtain ⟨p, hr, hcb, hd⟩ := validFrame_unpack reg F h
  rcases hd with ⟨-, h4, -⟩ | ⟨-, -, h2⟩ <;> omega

/-- Value of `minStand` once the definition is known. -/
theorem minStand_eq (reg : Reg) (F : List Nat) (p : Packets)
    (hr : reg (lePair F 0) = some p) :
    minStand reg F = if p.size < 0 then 5 else 3 := by
  unfold minStand
  rw [hr]

/-- Reading inside a frame placed at the front of a buffer. -/
theorem lePair_front (F C : List Nat) (o : Nat) (h : o + 1 < F.length) :
    lePair (F ++ C) o = lePair F o := by
  unfold lePair
  rw [List.getD_append F C 0 o (by omega), List.getD_append F C 0 (o + 1) h]

/-- Taking exactly the length of the left part of an append. -/
theorem take_len_append (X C : List Nat) (n : Nat) (h : X.length = n) :
    (X ++ C).take n = X := by
  subst h
  exact List.take_left X C

/-- Slicing from `a` to the frame end, for a frame at the buffer front. -/
theorem byteSlice_front (F C : List Nat) (a : Nat) (ha : a ≤ F.length) :
    byteSlice (F ++ C) a F.length = F.drop a := by
  unfold byteSlice
  rw [List.drop_append_of_le_length ha]
  exact take_len_append _ _ _ (by simp)

/-- When a buffer starts with a complete well-formed frame and extends
past the `>=` guards, the loop body consumes exactly the frame and
dispatches its event. -/
theorem step_front_dispatch (reg : Reg) (gh : Nat → Nat → Nat × Nat → Nat × Nat)
    (F C : List Nat) (pv : Nat × Nat)
    (hF : validFrame reg F = true)
    (hC : minStand reg F ≤ F.length + C.length) :
    ∃ pv' g, step reg gh (F ++ C) pv 0 = StepRes.more F.length pv' (some (evOf reg F)) g := by
  obtain ⟨p, hr, hcb, hd⟩ := validFrame_unpack reg F hF
  have hms := minStand_eq reg F p hr
  have hid : lePair (F ++ C) 0 = lePair F 0 :=
    lePair_front F C 0 (by have := validFrame_len2 reg F hF; omega)
  rcases hd with ⟨hv, h4, hLF⟩ | ⟨hv, hsz, h2⟩
  · -- variable-size frame
    rw [if_pos hv] at hms
    refine ⟨if p.guess.isSome && pv.1 != pv.2 then gh (lePair F 0) F.length pv else pv,
      if p.guess.isSome && pv.1 != pv.2 then some (lePair F 0, F.length) else none, ?_⟩
    simp only [step, List.length_append]
    rw [if_neg (by omega), hid, hr]
    dsimp only
    rw [if_pos hv, if_neg (by omega),
      show (0 : Nat) + 2 = 2 from rfl, lePair_front F C 2 (by omega), hLF]
    simp only [stepFrame, List.length_append, Nat.zero_add]
    rw [if_neg (by omega), if_pos hcb, byteSlice_front F C 4 (by omega),
      if_pos (by rw [bne_iff_ne]; omega : (F.length != 0) = true)]
    unfold evOf hdrOf
    rw [hr]
    dsimp only
    rw [if_pos hv]
  · -- fixed-size frame
    rw [if_neg (by omega)] at hms
    have htn : p.size.toNat = F.length := by omega
    refine ⟨if p.guess.isSome && pv.1 != pv.2 then gh (lePair F 0) F.length pv else pv,
      if p.guess.isSome && pv.1 != pv.2 then some (lePair F 0, F.length) else none, ?_⟩
    simp only [step, List.length_append]
    rw [if_neg (by omega), hid, hr]
    dsimp only
    rw [if_neg (by omega : ¬ p.size < 0), htn]
    simp only [stepFrame, List.length_append, Nat.zero_add]
    rw [if_neg (by omega), if_pos hcb, byteSlice_front F C 2 (by omega),
      if_pos (by rw [bne_iff_ne]; omega : (F.length != 0) = true)]
    unfold evOf hdrOf
    rw [hr]
    dsimp only
    rw [if_neg (by omega : ¬ p.size < 0)]

/-- When a nonempty buffer is a prefix of a well-formed frame (possibly
followed by more bytes) but too short for the loop's guards, the body
saves the whole buffer as carry-over. -/
theorem step_front_stuck (reg : Reg) (gh : Nat → Nat → Nat × Nat → Nat × Nat)
    (F r B t : List Nat) (pv : Nat × Nat)
    (hF : validFrame reg F = true)
    (hpre : B ++ t = F ++ r)
    (_hB0 : B ≠ [])
    (hless : B.length < max F.length (minStand reg F)) :
    ∃ pv' g, step reg gh B pv 0 = StepRes.stop (some B) pv' g := by
  obtain ⟨p, hr, hcb, hd⟩ := validFrame_unpack reg F hF
  have hms := minStand_eq reg F p hr
  have hlen2 := validFrame_len2 reg F hF
  by_cases h2 : B.length ≤ 2
  · refine ⟨pv, none, ?_⟩
    simp only [step]
    rw [if_pos (by omega), List.drop_zero]
  · have hid : lePair B 0 = lePair F 0 :=
      lePair_eq_of_pre B t F r hpre 0 (by omega) (by omega)
    rcases hd with ⟨hv, h4, hLF⟩ | ⟨hv, hsz, hf2⟩
    · -- variable-size frame
      rw [if_pos hv] at hms
      by_cases h4' : B.length ≤ 4
      · refine ⟨pv, none, ?_⟩
        simp only [step]
        rw [if_neg (by omega), hid, hr]
        dsimp only
        rw [if_pos hv, if_pos (by omega), List.drop_zero]
      · have hBF : B.length < F.length := by omega
        refine ⟨if p.guess.isSome && pv.1 != pv.2 then gh (lePair F 0) F.length pv else pv,
      if p.guess.isSome && pv.1 != pv.2 then some (lePair F 0, F.length) else none, ?_⟩
        simp only [step]
        rw [if_neg (by omega), hid, hr]
        dsimp only
        rw [if_pos hv, if_neg (by omega),
          show (0 : Nat) + 2 = 2 from rfl,
          lePair_eq_of_pre B t F r hpre 2 (by omega) (by omega), hLF]
        simp only [stepFrame, Nat.zero_add]
        rw [if_pos (by omega), List.drop_zero]
    · -- fixed-size frame
      rw [if_neg (by omega)] at hms
      have htn : p.size.toNat = F.length := by omega
      have hBF : B.length < F.length := by omega
      refine ⟨if p.guess.isSome && pv.1 != pv.2 then gh (lePair F 0) F.length pv else pv,
      if p.guess.isSome && pv.1 != pv.2 then some (lePair F 0, F.length) else none, ?_⟩
      simp only [step]
      rw [if_neg (by omega), hid, hr]
      dsimp only
      rw [if_neg (by omega : ¬ p.size < 0), htn]
      simp only [stepFrame, Nat.zero_add]
      rw [if_pos (by omega), List.drop_zero]

/-- Core single-call fact: on a buffer that is a prefix of the
concatenation of well-formed frames, the loop dispatches exactly the
events of the frames the buffer contains past the guards, in order, and
saves exactly the leftover bytes as carry-over (`null` if none). -/
theorem runL_takeFrames (reg : Reg) (gh : Nat → Nat → Nat × Nat → Nat × Nat) :
    ∀ (gs : List (List Nat)) (B t : List Nat) (pv : Nat × Nat) (fuel : Nat),
    (∀ F ∈ gs, validFrame reg F = true) →
    B ++ t = List.flatten gs →
    B.length < fuel →
    (runL reg gh B fuel pv 0).1 = ((takeFrames reg gs B).1).map (evOf reg)
    ∧ (runL reg gh B fuel pv 0).2.2.1 = optOf (takeFrames reg gs B).2 := by
  intro gs
  induction gs with
  | nil =>
    intro B t pv fuel hval hpre hfuel
    have hB : B = [] := by
      have hl := congrArg List.length hpre
      simp only [List.length_append, List.flatten_nil, List.length_nil] at hl
      exact List.length_eq_zero.mp (by omega)
    subst hB
    cases fuel with
    | zero => omega
    | succ n => exact ⟨by simp [runL, takeFrames], by simp [runL, takeFrames, optOf]⟩
  | cons F rest ih =>
    intro B t pv fuel hval hpre hfuel
    have hFv : validFrame reg F = true := hval F (List.mem_cons_self F rest)
    have hlen2 : 2 ≤ F.length := validFrame_len2 reg F hFv
    rw [List.flatten_cons] at hpre
    by_cases hc : max F.length (minStand reg F) ≤ B.length
    · have hFle : F.length ≤ B.length := le_trans (le_max_left _ _) hc
      have hmsle : minStand reg F ≤ B.length := le_trans (le_max_right _ _) hc
      have htake : B.take F.length = F := by
        have h1 := congrArg (List.take F.length) hpre
        rw [List.take_append_of_le_length hFle, take_len_append F (List.flatten rest) F.length rfl]
          at h1
        exact h1
      obtain ⟨B', hBsplit⟩ : ∃ B', B = F ++ B' := by
        refine ⟨B.drop F.length, ?_⟩
        conv_lhs => rw [← List.take_append_drop F.length B]
        rw [htake]
      subst hBsplit
      have hpre' : B' ++ t = List.flatten rest :=
        List.append_cancel_left
          (show F ++ (B' ++ t) = F ++ List.flatten rest by
            rw [← List.append_assoc]; exact hpre)
      obtain ⟨pv', g, hstep⟩ := step_front_dispatch reg gh F B' pv hFv
        (by simp only [List.length_append] at hmsle; exact hmsle)
      cases fuel with
      | zero => omega
      | succ n =>
        have hih := ih B' t pv' n (fun G hG => hval G (List.mem_cons_of_mem F hG)) hpre'
          (by simp only [List.length_append] at hfuel; omega)
        simp only [runL]
        rw [if_pos (by simp only [List.length_append]; omega : 0 < (F ++ B').length), hstep]
        dsimp only
        have hrun : runL reg gh (F ++ B') n pv' F.length = runL reg gh B' n pv' 0 := by
          have h0 := runL_shift reg gh F B' n pv' 0
          simpa using h0
        rw [hrun]
        simp only [takeFrames]
        rw [if_pos hc]
        refine ⟨?_, ?_⟩
        · dsimp only
          rw [List.drop_left, hih.1]
          rfl
        · dsimp only
          rw [List.drop_left, hih.2]
    · by_cases hB0 : B = []
      · subst hB0
        cases fuel with
        | zero => omega
        | succ n =>
          refine ⟨?_, ?_⟩
          · simp only [runL, takeFrames]
            rw [if_neg hc, if_neg (by simp)]
            rfl
          · simp only [runL, takeFrames]
            rw [if_neg hc, if_neg (by simp)]
            simp [optOf]
      · obtain ⟨pv', g, hstep⟩ :=
          step_front_stuck reg gh F (List.flatten rest) B t pv hFv hpre hB0 (Nat.not_le.mp hc)
        cases fuel with
        | zero => omega
        | succ n =>
          simp only [runL]
          rw [if_pos (List.length_pos.mpr hB0), hstep]
          dsimp only
          simp only [takeFrames]
          rw [if_neg hc]
          refine ⟨rfl, ?_⟩
          dsimp only
          rw [optOf, if_neg hB0]

/-- The leftover of the splitter is stuck: re-splitting it against the
remaining frames consumes nothing. -/
theorem takeFrames_stuck (reg : Reg) :
    ∀ (gs : List (List Nat)) (B : List Nat),
    takeFrames reg (gs.drop (takeFrames reg gs B).1.length) (takeFrames reg gs B).2
      = ([], (takeFrames reg gs B).2) := by
  intro gs
  induction gs with
  | nil => intro B; rfl
  | cons F rest ih =>
    intro B
    by_cases hc : max F.length (minStand reg F) ≤ B.length
    · simp only [takeFrames]
      rw [if_pos hc]
      dsimp only
      simp only [List.length_cons, List.drop_succ_cons]
      exact ih (B.drop F.length)
    · simp only [takeFrames]
      rw [if_neg hc]
      dsimp only
      simp only [List.length_nil, List.drop_zero, takeFrames]
      rw [if_neg hc]

/-- Appending more bytes extends a split: the frames consumed from `B`
stay consumed, and the leftover (with the new bytes) is re-split against
the remaining frames. -/
theorem takeFrames_append (reg : Reg) :
    ∀ (gs : List (List Nat)) (B E : List Nat),
    takeFrames reg gs (B ++ E)
      = ((takeFrames reg gs B).1
           ++ (takeFrames reg (gs.drop (takeFrames reg gs B).1.length)
                 ((takeFrames reg gs B).2 ++ E)).1,
         (takeFrames reg (gs.drop (takeFrames reg gs B).1.length)
            ((takeFrames reg gs B).2 ++ E)).2) := by
  intro gs
  induction gs with
  | nil => intro B E; rfl
  | cons F rest ih =>
    intro B E
    by_cases hc : max F.length (minStand reg F) ≤ B.length
    · have hc2 : max F.length (minStand reg F) ≤ (B ++ E).length := by
        simp only [List.length_append]
        omega
      have hFle : F.length ≤ B.length := le_trans (le_max_left _ _) hc
      simp only [takeFrames]
      rw [if_pos hc, if_pos hc2]
      dsimp only
      rw [List.drop_append_of_le_length hFle]
      simp only [List.length_cons, List.drop_succ_cons]
      rw [ih (B.drop F.length) E]
      simp [List.cons_append]
    · have hstk : takeFrames reg (F :: rest) B = ([], B) := by
        simp only [takeFrames]
        rw [if_neg hc]
      rw [hstk]
      dsimp only
      simp only [List.length_nil, List.drop_zero, List.nil_append]

/-- The leftover of a split, followed by the undelivered tail, is exactly
the concatenation of the remaining frames. -/
theorem takeFrames_rest (reg : Reg) :
    ∀ (gs : List (List Nat)) (B t : List Nat),
    B ++ t = List.flatten gs →
    (takeFrames reg gs B).2 ++ t = List.flatten (gs.drop (takeFrames reg gs B).1.length) := by
  intro gs
  induction gs with
  | nil =>
    intro B t h
    have hB : B = [] := by
      have hl := congrArg List.length h
      simp only [List.length_append, List.flatten_nil, List.length_nil] at hl
      exact List.length_eq_zero.mp (by omega)
    subst hB
    simpa [takeFrames] using h
  | cons F rest ih =>
    intro B t h
    rw [List.flatten_cons] at h
    by_cases hc : max F.length (minStand reg F) ≤ B.length
    · have hFle : F.length ≤ B.length := le_trans (le_max_left _ _) hc
      have htake : B.take F.length = F := by
        have h1 := congrArg (List.take F.length) h
        rw [List.take_append_of_le_length hFle, take_len_append F (List.flatten rest) F.length rfl]
          at h1
        exact h1
      obtain ⟨B', hBsplit⟩ : ∃ B', B = F ++ B' := by
        refine ⟨B.drop F.length, ?_⟩
        conv_lhs => rw [← List.take_append_drop F.length B]
        rw [htake]
      subst hBsplit
      have hpre' : B' ++ t = List.flatten rest :=
        List.append_cancel_left
          (show F ++ (B' ++ t) = F ++ List.flatten rest by
            rw [← List.append_assoc]; exact h)
      simp only [takeFrames]
      rw [if_pos hc]
      dsimp only
      rw [List.drop_left]
      simp only [List.length_cons, List.drop_succ_cons]
      exact ih B' t hpre'
    · simp only [takeFrames]
      rw [if_neg hc]
      dsimp only
      simp only [List.length_nil, List.drop_zero, List.flatten_cons]
      exact h

/-- Unfolding of the splitter when the head frame is consumed. -/
theorem takeFrames_cons_pos (reg : Reg) (F : List Nat) (rest : List (List Nat)) (B : List Nat)
    (hc : max F.length (minStand reg F) ≤ B.length) :
    takeFrames reg (F :: rest) B
      = (F :: (takeFrames reg rest (B.drop F.length)).1,
         (takeFrames reg rest (B.drop F.length)).2) := by
  simp only [takeFrames]
  rw [if_pos hc]

/-- A fully delivered, well-formed frame sequence whose last frame can
stand alone is consumed entirely, with empty leftover. -/
theorem takeFrames_full (reg : Reg) :
    ∀ (gs : List (List Nat)),
    (∀ F ∈ gs, validFrame reg F = true) → lastOk reg gs = true →
    takeFrames reg gs (List.flatten gs) = (gs, []) := by
  intro gs
  induction gs with
  | nil => intro _ _; rfl
  | cons F rest ih =>
    intro hval hlast
    have hFv := hval F (List.mem_cons_self F rest)
    have hlen2 := validFrame_len2 reg F hFv
    cases rest with
    | nil =>
      have hstand : minStand reg F ≤ F.length := by
        unfold lastOk at hlast
        simp only [List.getLast?_singleton] at hlast
        exact of_decide_eq_true hlast
      simp only [takeFrames, List.flatten_cons, List.flatten_nil, List.append_nil]
      rw [if_pos (by rw [Nat.max_le]; exact ⟨le_refl _, hstand⟩)]
      rw [List.drop_length]
    | cons G rest' =>
      have hGv := hval G (by simp)
      have hG2 := validFrame_len2 reg G hGv
      have hflat2 : 2 ≤ (List.flatten (G :: rest')).length := by
        rw [List.flatten_cons]
        simp only [List.length_append]
        omega
      obtain ⟨p, hr, -, hd⟩ := validFrame_unpack reg F hFv
      have hms := minStand_eq reg F p hr
      have hcond : max F.length (minStand reg F) ≤ (List.flatten (F :: G :: rest')).length := by
        rw [List.flatten_cons]
        simp only [List.length_append]
        rw [Nat.max_le]
        rcases hd with ⟨hv, h4, -⟩ | ⟨hv, hsz, h2⟩
        · rw [if_pos hv] at hms
          exact ⟨by omega, by omega⟩
        · rw [if_neg (by omega)] at hms
          exact ⟨by omega, by omega⟩
      have hih := ih (fun H hH => hval H (List.mem_cons_of_mem F hH)) (by
        unfold lastOk at hlast ⊢
        simpa using hlast)
      rw [takeFrames_cons_pos reg F (G :: rest') (List.flatten (F :: G :: rest')) hcond,
        show List.flatten (F :: G :: rest') = F ++ List.flatten (G :: rest') from
          List.flatten_cons,
        List.drop_left, hih]

/-- The saved leftover concatenates back as the raw bytes. -/
theorem optOf_getD (L : List Nat) : (optOf L).getD [] = L := by
  unfold optOf
  by_cases h : L = []
  · rw [if_pos h, h]
    rfl
  · rw [if_neg h]
    rfl

/-- Multi-call composition: delivering chunks one `receive` call at a
time, starting from a stuck leftover, dispatches exactly the frames the
splitter assigns to the total delivered bytes, and ends with the
splitter's leftover saved. -/
theorem receiveAll_takeFrames (reg : Reg) (gh : Nat → Nat → Nat × Nat → Nat × Nat) :
    ∀ (cs gs : List (List Nat)) (L t : List Nat) (pv : Nat × Nat),
    (∀ F ∈ gs, validFrame reg F = true) →
    takeFrames reg gs L = ([], L) →
    L ++ (List.flatten cs ++ t) = List.flatten gs →
    (receiveAll reg gh ⟨optOf L, pv⟩ cs).1
      = ((takeFrames reg gs (L ++ List.flatten cs)).1).map (evOf reg)
    ∧ (receiveAll reg gh ⟨optOf L, pv⟩ cs).2.save
      = optOf (takeFrames reg gs (L ++ List.flatten cs)).2 := by
  intro cs
  induction cs with
  | nil =>
    intro gs L t pv hval hstuck hpre
    simp only [receiveAll, List.flatten_nil, List.append_nil]
    rw [hstuck]
    exact ⟨rfl, rfl⟩
  | cons c cs' ih =>
    intro gs L t pv hval hstuck hpre
    rw [List.flatten_cons] at hpre
    have hpre1 : (L ++ c) ++ (List.flatten cs' ++ t) = List.flatten gs := by
      simpa [List.append_assoc] using hpre
    have hrun := runL_takeFrames reg gh gs (L ++ c) (List.flatten cs' ++ t) pv
      ((L ++ c).length + 1) hval hpre1 (by omega)
    have hseq :
        L ++ List.flatten (c :: cs') = (L ++ c) ++ List.flatten cs' := by
      rw [List.flatten_cons, List.append_assoc]
    have happ := takeFrames_append reg gs (L ++ c) (List.flatten cs')
    have hihres := ih (gs.drop (takeFrames reg gs (L ++ c)).1.length)
      (takeFrames reg gs (L ++ c)).2 t
      (runL reg gh (L ++ c) ((L ++ c).length + 1) pv 0).2.2.2
      (fun F hF => hval F (List.drop_subset _ _ hF))
      (takeFrames_stuck reg gs (L ++ c))
      (takeFrames_rest reg gs (L ++ c) (List.flatten cs' ++ t) hpre1)
    simp only [receiveAll, receive, optOf_getD]
    constructor
    · rw [hseq, happ, List.map_append]
      rw [hrun.1, hrun.2]
      rw [hihres.1]
    · rw [hseq, happ]
      rw [hrun.2]
      rw [hihres.2]

/-- C1, claim as stated is false: a single well-formed 2-byte fixed-size
frame delivered whole (the trivial split) dispatches nothing — the `>=`
guard saves it as carry-over instead. -/
theorem receive_trailing_short_frame_cex :
    validFrame tReg [4, 0] = true
    ∧ (receiveAll tReg gh0 ⟨none, (20, 30)⟩ [[4, 0]]).1 ≠ [[4, 0]].map (evOf tReg)
    ∧ (receiveAll tReg gh0 ⟨none, (20, 30)⟩ [[4, 0]]).1 = []
    ∧ (receiveAll tReg gh0 ⟨none, (20, 30)⟩ [[4, 0]]).2.save = some [4, 0] := by
  decide

/-- C1 (amended): for every sequence of well-formed frames whose last
frame is long enough to stand alone at the end of the stream (fixed-size
frames of at least 3 bytes, variable-size frames of at least 5 — shorter
trailing frames are kept as carry-over by the `>=` guards), and every way
of splitting the concatenation into chunks delivered across successive
`receive` calls, the reassembler dispatches exactly the frames' events,
in order, with nothing duplicated, dropped or reordered, and the final
carry-over is empty. -/
theorem receive_chunk_split_invariance (reg : Reg) (gh : Nat → Nat → Nat × Nat → Nat × Nat)
    (frames chunks : List (List Nat)) (pv : Nat × Nat)
    (hval : ∀ F ∈ frames, validFrame reg F = true)
    (hlast : lastOk reg frames = true)
    (hjoin : List.flatten chunks = List.flatten frames) :
    (receiveAll reg gh ⟨none, pv⟩ chunks).1 = frames.map (evOf reg)
    ∧ (receiveAll reg gh ⟨none, pv⟩ chunks).2.save = none := by
  have hstuck : takeFrames reg frames [] = ([], []) := by
    cases frames with
    | nil => rfl
    | cons F rest =>
      have h2 := validFrame_len2 reg F (hval F (List.mem_cons_self F rest))
      simp only [takeFrames]
      rw [if_neg (by rw [Nat.max_le]; simp only [List.length_nil]; omega)]
  have h := receiveAll_takeFrames reg gh chunks frames [] [] pv hval hstuck
    (by simp [hjoin])
  have hnil : optOf ([] : List Nat) = none := rfl
  rw [hnil, List.nil_append, hjoin, takeFrames_full reg frames hval hlast] at h
  exact ⟨by simpa using h.1, by simpa [optOf] using h.2⟩

/-- Witness for `receive_chunk_split_invariance`: a fixed-size and a
variable-size frame delivered across four uneven chunks. -/
theorem receive_chunk_split_invariance_witness :
    (receiveAll tReg gh0 ⟨none, (20, 30)⟩ [[1, 0], [7, 2, 0], [8, 0, 5, 6], [7, 8]]).1
      = [[1, 0, 7], [2, 0, 8, 0, 5, 6, 7, 8]].map (evOf tReg)
    ∧ (receiveAll tReg gh0 ⟨none, (20, 30)⟩ [[1, 0], [7, 2, 0], [8, 0, 5, 6], [7, 8]]).2.save
      = none :=
  receive_chunk_split_invariance tReg gh0 [[1, 0, 7], [2, 0, 8, 0, 5, 6, 7, 8]]
    [[1, 0], [7, 2, 0], [8, 0, 5, 6], [7, 8]] (20, 30) (by decide) (by decide) (by decide)

/-- The loop on well-formed frames followed by an unknown-identifier
tail: every frame before the tail is dispatched, then the break path
runs and `_save_buffer` ends `null`. -/
theorem runL_unknown (reg : Reg) (gh : Nat → Nat → Nat × Nat → Nat × Nat) :
    ∀ (fs : List (List Nat)) (tl : List Nat) (pv : Nat × Nat) (fuel : Nat),
    (∀ F ∈ fs, validFrame reg F = true) →
    3 ≤ tl.length →
    reg (lePair tl 0) = none →
    (List.flatten fs ++ tl).length < fuel →
    (runL reg gh (List.flatten fs ++ tl) fuel pv 0).1 = fs.map (evOf reg)
    ∧ (runL reg gh (List.flatten fs ++ tl) fuel pv 0).2.2.1 = none := by
  intro fs
  induction fs with
  | nil =>
    intro tl pv fuel hval h3 hunk hfuel
    cases fuel with
    | zero => omega
    | succ n =>
      simp only [List.flatten_nil, List.nil_append]
      simp only [runL]
      rw [if_pos (by omega)]
      have hstep : step reg gh tl pv 0 = StepRes.stop none pv none := by
        simp only [step]
        rw [if_neg (by omega), hunk]
      rw [hstep]
      exact ⟨rfl, rfl⟩
  | cons F rest ih =>
    intro tl pv fuel hval h3 hunk hfuel
    have hFv := hval F (List.mem_cons_self F rest)
    have hlen2 := validFrame_len2 reg F hFv
    have hbuf : List.flatten (F :: rest) ++ tl = F ++ (List.flatten rest ++ tl) := by
      rw [List.flatten_cons, List.append_assoc]
    rw [hbuf] at hfuel ⊢
    obtain ⟨p, hr, -, hd⟩ := validFrame_unpack reg F hFv
    have hms := minStand_eq reg F p hr
    have hcond : minStand reg F ≤ F.length + (List.flatten rest ++ tl).length := by
      simp only [List.length_append]
      rcases hd with ⟨hv, h4, -⟩ | ⟨hv, -, h2⟩
      · rw [if_pos hv] at hms
        omega
      · rw [if_neg (by omega)] at hms
        omega
    obtain ⟨pv', g, hstep⟩ := step_front_dispatch reg gh F (List.flatten rest ++ tl) pv hFv hcond
    cases fuel with
    | zero => omega
    | succ n =>
      simp only [runL]
      rw [if_pos (by simp only [List.length_append]; omega), hstep]
      dsimp only
      have hrun : runL reg gh (F ++ (List.flatten rest ++ tl)) n pv' F.length
          = runL reg gh (List.flatten rest ++ tl) n pv' 0 := by
        have h0 := runL_shift reg gh F (List.flatten rest ++ tl) n pv' 0
        simpa using h0
      rw [hrun]
      have hih := ih tl pv' n (fun G hG => hval G (List.mem_cons_of_mem F hG)) h3 hunk
        (by simp only [List.length_append] at hfuel ⊢; omega)
      refine ⟨?_, hih.2⟩
      rw [hih.1]
      rfl

/-- C7: when a buffer consists of well-formed frames followed by a tail
of at least 3 bytes whose 2-byte identifier is unknown to the registry,
the `receive` call dispatches exactly the frames before the tail, nothing
at or after the unknown identifier, saves none of the remaining bytes,
and leaves the carry-over buffer empty (`null`). -/
theorem unknown_id_discards (reg : Reg) (gh : Nat → Nat → Nat × Nat → Nat × Nat)
    (fs : List (List Nat)) (tl : List Nat) (pv : Nat × Nat)
    (hval : ∀ F ∈ fs, validFrame reg F = true)
    (h3 : 3 ≤ tl.length)
    (hunk : reg (lePair tl 0) = none) :
    (receive reg gh ⟨none, pv⟩ (List.flatten fs ++ tl)).1.1 = fs.map (evOf reg)
    ∧ (receive reg gh ⟨none, pv⟩ (List.flatten fs ++ tl)).2.save = none := by
  have h := runL_unknown reg gh fs tl pv ((List.flatten fs ++ tl).length + 1) hval h3 hunk
    (by omega)
  simp only [receive, Option.getD_none, List.nil_append]
  exact ⟨h.1, h.2⟩

/-- Witness for `unknown_id_discards`: one valid frame, then the
unregistered identifier 0x9999 followed by more bytes. -/
theorem unknown_id_discards_witness :
    (receive tReg gh0 ⟨none, (20, 30)⟩ (List.flatten [[1, 0, 7]] ++ [153, 153, 1, 2, 3])).1.1
      = [[1, 0, 7]].map (evOf tReg)
    ∧ (receive tReg gh0 ⟨none, (20, 30)⟩ (List.flatten [[1, 0, 7]] ++ [153, 153, 1, 2, 3])).2.save
      = none :=
  unknown_id_discards tReg gh0 [[1, 0, 7]] [153, 153, 1, 2, 3] (20, 30)
    (by decide) (by decide) (by decide)
